import Mathlib

/-!
# Contentful entry projection (`lib/Contentful.js`)

A shallow embedding of the data reshaping done by `Contentful.getEntries`:
JavaScript values are a small algebraic datatype, objects are association
lists in insertion order, and the promise returned by `getEntries` is an
`Except` value (rejected with a reason, or fulfilled with the records).

Modelling boundaries, stated once:
* an entry is well-formed by its type: `sys` and `fields` are objects, and
  every field of `fields` holds an object, the field's locale map; the
  locale configuration is absent or a list of locale specifications, each a
  string or a list of strings;
* `merge` is the third-party package `deepmerge`; it is modelled from the
  algorithm the package publishes, and the cases on which its releases
  differ (those that involve an array) are left open as a parameter `am`;
* property access is own-property access; keys that name members of
  `Object.prototype` are outside the model;
* numbers are integers (no `NaN`, no fractions);
* the order in which JavaScript enumerates integer-like keys is not
  modelled: objects keep insertion order, and the results below speak about
  lookup and key membership;
* `console.log` and the in-place mutation of the delegate's response are
  not observable in the returned records and are left out.
-/

namespace Contentful

/-- JavaScript values that can occur in an entry or in a record. -/
inductive Val where
  | undef : Val
  | null : Val
  | bool (b : Bool) : Val
  | num (n : Int) : Val
  | str (s : String) : Val
  | arr (xs : List Val) : Val
  | obj (kvs : List (String × Val)) : Val

/-- A JavaScript object: its own enumerable properties, in insertion order. -/
abbrev Obj := List (String × Val)

/-- Property read `o[k]`: the value stored under `k`, `undefined` if there is none. -/
def Obj.get : Obj → String → Val
  | [], _ => Val.undef
  | (k', v) :: rest, k => if k' = k then v else Obj.get rest k

/-- Property write `o[k] = v`: replaces the value of an existing key in place, appends a new key. -/
def Obj.set : Obj → String → Val → Obj
  | [], k, v => [(k, v)]
  | (k', v') :: rest, k, v => if k' = k then (k, v) :: rest else (k', v') :: Obj.set rest k v

/-- Key test `k in o` restricted to own properties. -/
def Obj.has (o : Obj) (k : String) : Bool :=
  o.any (fun p => p.1 == k)

/-- Property removal `delete o[k]`. -/
def Obj.delete (o : Obj) (k : String) : Obj :=
  o.filter (fun p => p.1 != k)

/-- JavaScript truthiness (`ToBoolean`). -/
def truthy : Val → Bool
  | Val.undef => false
  | Val.null => false
  | Val.bool b => b
  | Val.num n => n != 0
  | Val.str s => s != ""
  | Val.arr _ => true
  | Val.obj _ => true

/-- Whether `deepmerge(tv, v)` involves an array in a way the releases of the package treat
differently: the source value `v` is an array and the target value `tv` is truthy, or `v` is an
object and `tv` is an array. -/
def arrayMet (tv v : Val) : Bool :=
  match v, tv with
  | Val.arr _, tv => truthy tv
  | Val.obj _, Val.arr _ => true
  | _, _ => false

mutual
/-- The value `deepmerge` stores under a key of the source object, where `source[key]` is `v`
and `target[key]` is `tv`. A source value that is not an object or array is stored as it is;
an object met by an object is merged recursively; an object or array met by a falsy target
value, and an object met by a truthy primitive, come out equal to the source value. Where an
array is involved (`arrayMet`), the releases of the package differ (index-wise merging,
concatenation, replacement): the result is `am tv v`, with `am` left open. -/
def mergeValue (am : Val → Val → Val) (tv : Val) : Val → Val
  | Val.obj s =>
    match tv with
    | Val.obj t => Val.obj (mergeObject am t t s)
    | Val.arr t => am (Val.arr t) (Val.obj s)
    | _ => Val.obj s
  | Val.arr s => if truthy tv then am tv (Val.arr s) else Val.arr s
  | v => v
termination_by structural v => v
/-- The loop of `deepmerge` over the keys of the source object (`mergeObject` in the package,
the third-party dependency required at line 5): `dst`, which starts as a copy of `target`,
receives every source key in turn. -/
def mergeObject (am : Val → Val → Val) (target : Obj) (dst : Obj) :
    List (String × Val) → Obj
  | [] => dst
  | p :: rest => mergeObject am target (Obj.set dst p.1 (mergeProperty am target p)) rest
termination_by structural source => source
/-- One property of the source object, merged against the target. -/
def mergeProperty (am : Val → Val → Val) (target : Obj) : String × Val → Val
  | (k, v) => mergeValue am (Obj.get target k) v
termination_by structural p => p
end

/-- The call `merge(x, y)` on two objects (line 5: `merge = require('deepmerge')`). -/
def merge (am : Val → Val → Val) (x y : Obj) : Obj :=
  mergeObject am x x y

mutual
/-- What `a.concat(Array.isArray(b) ? flatten(b) : b)` appends to `a` (lines 9-11). -/
def flattenItem : Val → List Val
  | Val.arr xs => flattenReduce [] xs
  | b => [b]
termination_by structural b => b
/-- The `reduce` of `flatten` with accumulator `a` (lines 9-11). -/
def flattenReduce (a : List Val) : List Val → List Val
  | [] => a
  | b :: rest => flattenReduce (a ++ flattenItem b) rest
termination_by structural array => array
end

/-- The function `flatten` (lines 8-12). -/
def flatten (array : List Val) : List Val :=
  flattenReduce [] array

/-- A locale specification: one locale code, or a list of codes in order of preference. -/
inductive LocaleSpec where
  | code (c : String) : LocaleSpec
  | codes (cs : List String) : LocaleSpec

/-- The expression `locale[0]` (line 93): the first element of a list, the first character of a
string (one UTF-16 unit, which is one character for every code in the Basic Multilingual
Plane), `undefined` when there is none. -/
def LocaleSpec.first : LocaleSpec → Val
  | LocaleSpec.code c =>
    match c.data with
    | [] => Val.undef
    | ch :: _ => Val.str (String.singleton ch)
  | LocaleSpec.codes [] => Val.undef
  | LocaleSpec.codes (c :: _) => Val.str c

/-- The candidate list after lines 107-109: a single code is wrapped into a list. -/
def LocaleSpec.candidates : LocaleSpec → List String
  | LocaleSpec.code c => [c]
  | LocaleSpec.codes cs => cs

/-- One round of the `forEach` callback of `_getLocaleString` (lines 112-114). -/
def localeStep (field : Obj) (localizedField : Val) (currentLocale : String) : Val :=
  if truthy (Obj.get field currentLocale) && !truthy localizedField then
    Obj.get field currentLocale
  else localizedField

/-- The method `_getLocaleString` (lines 104-118) on a field's locale map. -/
def _getLocaleString (field : Obj) (locale : LocaleSpec) : Val :=
  locale.candidates.foldl (localeStep field) Val.undef

/-- An entry of the delegate's response: the `sys` block and the `fields` block, which maps
every field name to that field's locale map. -/
structure Entry where
  sys : Obj
  fields : List (String × Obj)

/-- The `fields` block as the object it is, every locale map being a value. -/
def Entry.fieldsObj (entry : Entry) : Obj :=
  entry.fields.map (fun p => (p.1, Val.obj p.2))

/-- The method `_getFieldsForLocale` (lines 86-96). -/
def _getFieldsForLocale (fields : List (String × Obj)) (locale : LocaleSpec) : Obj :=
  Obj.set
    (fields.foldl (fun entry p => Obj.set entry p.1 (_getLocaleString p.2 locale)) [])
    "locale" locale.first

/-- The `sys` block after lines 56-57. -/
def stripSys (sys : Obj) : Obj :=
  Obj.delete (Obj.delete sys "space") "contentType"

/-- The callback of `entries.items.map` (lines 54-70): one record when no locales are set, the
array `localizedEntries` otherwise. -/
def projectEntry (am : Val → Val → Val) (locales : Option (List LocaleSpec))
    (entry : Entry) : Val :=
  match locales with
  | none => Val.obj (merge am (stripSys entry.sys) entry.fieldsObj)
  | some ls =>
    Val.arr (ls.foldl
      (fun localizedEntries locale =>
        localizedEntries ++
          [Val.obj (merge am (stripSys entry.sys) (_getFieldsForLocale entry.fields locale))])
      [])

/-- The method `getEntries` (lines 45-78). The promise of the delegate client is given by its
outcome `response` (rejected with a reason, or fulfilled with the items); the result is the
outcome of the returned promise. -/
def getEntries {ε : Type} (am : Val → Val → Val)
    (locales : Option (List LocaleSpec)) (response : Except ε (List Entry)) :
    Except ε (List Val) :=
  match response with
  | Except.error e => Except.error e
  | Except.ok items => Except.ok (flatten (items.map (projectEntry am locales)))

/-- The array handling of the current releases of `deepmerge`: two arrays are concatenated, and
an array met by anything else, or an object met by an array, replaces the target value. -/
def concatMerge (tv v : Val) : Val :=
  match tv, v with
  | Val.arr t, Val.arr s => Val.arr (t ++ s)
  | _, v => v

/-- The records of one entry on the localized path, one per locale specification. -/
def localizedRecords (am : Val → Val → Val) (ls : List LocaleSpec)
    (entry : Entry) : List Val :=
  ls.map (fun locale =>
    Val.obj (merge am (stripSys entry.sys) (_getFieldsForLocale entry.fields locale)))

/-- The record of one entry when no locales are set. -/
def rawRecord (am : Val → Val → Val) (entry : Entry) : Val :=
  Val.obj (merge am (stripSys entry.sys) entry.fieldsObj)

/-- The test `Array.isArray(b)` (line 10). -/
def isArray : Val → Bool
  | Val.arr _ => true
  | _ => false

/-- Single-level flattening, in the words of the specification's design note: the output of the
emission loop (per-entry lists of per-locale records, or one record per entry) is gone through
once with an explicit accumulation, each per-entry list being appended as it is, without
descending into its elements. -/
def flattenSingleLevel (data : List Val) : List Val :=
  data.foldl
    (fun acc b =>
      match b with
      | Val.arr xs => acc ++ xs
      | v => acc ++ [v])
    []

mutual
/-- The non-array leaves of a value in left-to-right depth-first order, in the words of the
claim about `flatten`: a value that is not an array is its own single leaf. -/
def leaves : Val → List Val
  | Val.arr xs => leavesOfList xs
  | v => [v]
termination_by structural v => v
/-- The leaves of the elements of an array, element after element. -/
def leavesOfList : List Val → List Val
  | [] => []
  | b :: rest => leaves b ++ leavesOfList rest
termination_by structural xs => xs
end

/-! ## Sample data -/

/-- The entry of the end-to-end example: `sys = {id: "1", space: {}, contentType: {}}` and
`fields = {title: {en: "Hello", de: "Hallo"}}`. -/
def helloEntry : Entry :=
  { sys := [("id", Val.str "1"), ("space", Val.obj []), ("contentType", Val.obj [])],
    fields := [("title", [("en", Val.str "Hello"), ("de", Val.str "Hallo")])] }

/-- The locale list `[["en"], ["de"]]`. -/
def enDe : List LocaleSpec :=
  [LocaleSpec.codes ["en"], LocaleSpec.codes ["de"]]

/-- An entry whose `fields` block has a field named `space`. -/
def spaceFieldEntry : Entry :=
  { sys := [("id", Val.str "1"), ("space", Val.obj [])],
    fields := [("space", [("en", Val.str "Mir")])] }

/-- An entry whose sys block and whose `fields` block both have a key `environment`, the value
being an object on either side. -/
def environmentEntry : Entry :=
  { sys := [("id", Val.str "1"), ("environment", Val.obj [("id", Val.str "master")])],
    fields := [("environment", [("en", Val.obj [("name", Val.str "staging")])])] }

/-- An entry with a field `subtitle` that has a value in `en` only. -/
def subtitleEntry : Entry :=
  { sys := [("id", Val.str "7")],
    fields := [("subtitle", [("en", Val.str "A")])] }

/-- An entry with a content field that is itself named `locale`. -/
def localeFieldEntry : Entry :=
  { sys := [("id", Val.str "3"), ("revision", Val.num 2)],
    fields := [("locale", [("en", Val.str "Berlin")]), ("title", [("en", Val.str "Office")])] }

/-- An array nested three levels deep: `[1, [2, [3, []], "x"], [[4]]]`. -/
def nestedArray : List Val :=
  [Val.num 1, Val.arr [Val.num 2, Val.arr [Val.num 3, Val.arr []], Val.str "x"],
    Val.arr [Val.arr [Val.num 4]]]

/-! ## The flattening of the emission loop -/

theorem flattenReduce_acc (xs : List Val) :
    ∀ a : List Val, flattenReduce a xs = a ++ flattenReduce [] xs := by
  induction xs with
  | nil => intro a; simp [flattenReduce]
  | cons b rest ih =>
    intro a
    rw [flattenReduce, ih (a ++ flattenItem b), flattenReduce, ih ([] ++ flattenItem b)]
    simp

theorem flatten_cons (b : Val) (rest : List Val) :
    flatten (b :: rest) = flattenItem b ++ flatten rest := by
  unfold flatten
  rw [flattenReduce, flattenReduce_acc]
  simp

theorem flatten_nil : flatten [] = [] := by
  simp [flatten, flattenReduce]

theorem push_fold_eq_map {α β : Type} (f : α → β) (xs : List α) :
    ∀ acc : List β, xs.foldl (fun acc x => acc ++ [f x]) acc = acc ++ xs.map f := by
  induction xs with
  | nil => intro acc; simp
  | cons x rest ih => intro acc; simp [ih]

theorem projectEntry_some (am : Val → Val → Val) (ls : List LocaleSpec)
    (entry : Entry) :
    projectEntry am (some ls) entry = Val.arr (localizedRecords am ls entry) := by
  simp [projectEntry, localizedRecords, push_fold_eq_map]

theorem projectEntry_none (am : Val → Val → Val) (entry : Entry) :
    projectEntry am none entry = rawRecord am entry := rfl

theorem flatten_localizedRecords (am : Val → Val → Val) (ls : List LocaleSpec)
    (entry : Entry) : flatten (localizedRecords am ls entry) = localizedRecords am ls entry := by
  unfold localizedRecords
  induction ls with
  | nil => simp [flatten_nil]
  | cons l rest ih => simp [flatten_cons, ih, flattenItem]

theorem flatten_rawRecords (am : Val → Val → Val) (es : List Entry) :
    flatten (es.map (rawRecord am)) = es.map (rawRecord am) := by
  induction es with
  | nil => simp [flatten_nil]
  | cons e rest ih => simp [flatten_cons, ih, flattenItem, rawRecord]

theorem flatten_projected (am : Val → Val → Val) (ls : List LocaleSpec)
    (es : List Entry) :
    flatten (es.map (projectEntry am (some ls))) = (es.map (localizedRecords am ls)).flatten := by
  induction es with
  | nil => simp [flatten_nil]
  | cons e rest ih =>
    have h := flatten_localizedRecords am ls e
    unfold flatten at h
    rw [List.map_cons, flatten_cons, ih, projectEntry_some, flattenItem, h]
    simp

theorem getEntries_localized {ε : Type} (am : Val → Val → Val)
    (ls : List LocaleSpec) (es : List Entry) :
    getEntries (ε := ε) am (some ls) (Except.ok es)
      = Except.ok ((es.map (localizedRecords am ls)).flatten) := by
  simp [getEntries, flatten_projected]

theorem getEntries_unlocalized {ε : Type} (am : Val → Val → Val)
    (es : List Entry) :
    getEntries (ε := ε) am none (Except.ok es) = Except.ok (es.map (rawRecord am)) := by
  have h : (fun e => projectEntry am none e) = rawRecord am := by
    funext e; exact projectEntry_none am e
  simp only [getEntries]
  rw [show projectEntry am none = rawRecord am from h, flatten_rawRecords]

/-! ## Position of a record in the flattened output -/

theorem flatten_map_getElem? {α β : Type} (g : α → List β) (n : Nat)
    (hg : ∀ e, (g e).length = n) (es : List α) :
    ∀ i j : Nat, i < es.length → j < n →
      (es.map g).flatten[i * n + j]? = (es[i]?).bind (fun e => (g e)[j]?) := by
  induction es with
  | nil => intro i j hi; simp at hi
  | cons e rest ih =>
    intro i j hi hj
    cases i with
    | zero =>
      simp only [List.map_cons, List.flatten_cons, Nat.zero_mul, Nat.zero_add]
      rw [List.getElem?_append_left (by rw [hg]; exact hj)]
      simp
    | succ i =>
      have hi2 : i < rest.length := by simpa using hi
      simp only [List.map_cons, List.flatten_cons]
      rw [List.getElem?_append_right (by rw [hg]; nlinarith)]
      have hidx : (i + 1) * n + j - (g e).length = i * n + j := by
        rw [hg, Nat.add_mul]; omega
      rw [hidx, ih i j hi2 hj]
      simp

theorem flatten_map_length {α β : Type} (g : α → List β) (n : Nat)
    (hg : ∀ e, (g e).length = n) (es : List α) :
    (es.map g).flatten.length = es.length * n := by
  induction es with
  | nil => simp
  | cons e rest ih => simp [ih, hg, Nat.add_mul, Nat.add_comm]

theorem localizedRecords_length (am : Val → Val → Val) (ls : List LocaleSpec)
    (e : Entry) : (localizedRecords am ls e).length = ls.length := by
  simp [localizedRecords]

theorem localized_index (am : Val → Val → Val) (ls : List LocaleSpec)
    (es : List Entry) (i j : Nat) (hi : i < es.length) (hj : j < ls.length) :
    (es.map (localizedRecords am ls)).flatten[i * ls.length + j]?
      = some (Val.obj (merge am (stripSys es[i].sys) (_getFieldsForLocale es[i].fields ls[j]))) := by
  rw [flatten_map_getElem? (localizedRecords am ls) ls.length
    (localizedRecords_length am ls) es i j hi hj]
  simp [List.getElem?_eq_getElem hi, localizedRecords, List.getElem?_eq_getElem hj]

/-! ## Reading and writing properties -/

theorem Obj.get_set (o : Obj) (k : String) (v : Val) (k' : String) :
    Obj.get (Obj.set o k v) k' = if k = k' then v else Obj.get o k' := by
  induction o with
  | nil => simp [Obj.set, Obj.get]
  | cons p rest ih =>
    obtain ⟨a, b⟩ := p
    by_cases h : a = k
    · subst h
      by_cases h2 : a = k' <;> simp [Obj.set, Obj.get, h2]
    · by_cases h2 : a = k'
      · subst h2
        have h3 : ¬ k = a := fun h4 => h h4.symm
        simp [Obj.set, Obj.get, h, h3]
      · simp [Obj.set, Obj.get, h, h2, ih]

theorem Obj.has_iff (o : Obj) (k : String) :
    Obj.has o k = true ↔ k ∈ o.map Prod.fst := by
  simp only [Obj.has, List.any_eq_true, List.mem_map, beq_iff_eq]

theorem Obj.has_nil (k : String) : Obj.has [] k = false := rfl

theorem Obj.has_cons (p : String × Val) (rest : Obj) (k : String) :
    Obj.has (p :: rest) k = true ↔ p.1 = k ∨ Obj.has rest k = true := by
  simp [Obj.has]

theorem Obj.has_set (o : Obj) (k : String) (v : Val) (k' : String) :
    Obj.has (Obj.set o k v) k' = true ↔ k = k' ∨ Obj.has o k' = true := by
  induction o with
  | nil => simp [Obj.set, Obj.has]
  | cons p rest ih =>
    obtain ⟨a, b⟩ := p
    by_cases h : a = k
    · subst h
      simp only [Obj.set, if_true, Obj.has_cons]
      tauto
    · simp only [Obj.set, h, if_false, Obj.has_cons, ih]
      tauto

theorem Obj.has_delete (o : Obj) (k k' : String) :
    Obj.has (Obj.delete o k) k' = true ↔ Obj.has o k' = true ∧ k' ≠ k := by
  simp only [Obj.has, Obj.delete, List.any_eq_true, List.mem_filter, beq_iff_eq, bne_iff_ne]
  constructor
  · rintro ⟨p, ⟨hp, hne⟩, rfl⟩; exact ⟨⟨p, hp, rfl⟩, hne⟩
  · rintro ⟨⟨p, hp, rfl⟩, hne⟩; exact ⟨p, ⟨hp, hne⟩, rfl⟩

theorem Obj.get_delete (o : Obj) (k k' : String) :
    Obj.get (Obj.delete o k) k' = if k' = k then Val.undef else Obj.get o k' := by
  induction o with
  | nil => simp [Obj.delete, Obj.get]
  | cons p rest ih =>
    obtain ⟨a, b⟩ := p
    unfold Obj.delete at ih
    by_cases h : a = k
    · subst h
      by_cases h2 : a = k'
      · subst h2; simpa [Obj.delete, Obj.get, List.filter_cons] using ih
      · simpa [Obj.delete, Obj.get, List.filter_cons, h2] using ih
    · by_cases h2 : a = k'
      · subst h2
        simp [Obj.delete, Obj.get, h, List.filter_cons]
      · simp [Obj.delete, Obj.get, h, h2, List.filter_cons, ih]

theorem Obj.get_of_not_has (o : Obj) (k : String) (h : Obj.has o k = false) :
    Obj.get o k = Val.undef := by
  induction o with
  | nil => rfl
  | cons p rest ih =>
    obtain ⟨a, b⟩ := p
    have h0 : ¬ (Obj.has ((a, b) :: rest) k = true) := by simp [h]
    rw [Obj.has_cons] at h0
    have h1 : ¬ a = k := fun h2 => h0 (Or.inl h2)
    have h3 : Obj.has rest k = false := by
      cases hh : Obj.has rest k
      · rfl
      · exact absurd (Or.inr hh) h0
    simp only [Obj.get, h1, if_false]
    exact ih h3

theorem Obj.keys_set (o : Obj) (k : String) (v : Val) :
    ∀ x, x ∈ (Obj.set o k v).map Prod.fst ↔ x = k ∨ x ∈ o.map Prod.fst := by
  intro x
  rw [← Obj.has_iff, ← Obj.has_iff, Obj.has_set]
  constructor
  · rintro (h | h)
    · exact Or.inl h.symm
    · exact Or.inr h
  · rintro (h | h)
    · exact Or.inl h.symm
    · exact Or.inr h

theorem Obj.nodup_set (o : Obj) (k : String) (v : Val) (h : (o.map Prod.fst).Nodup) :
    ((Obj.set o k v).map Prod.fst).Nodup := by
  induction o with
  | nil => simp [Obj.set]
  | cons p rest ih =>
    obtain ⟨a, b⟩ := p
    simp only [List.map_cons, List.nodup_cons] at h
    by_cases hk : a = k
    · subst hk
      simp only [Obj.set, if_true, List.map_cons, List.nodup_cons]
      exact h
    · simp only [Obj.set, hk, if_false, List.map_cons, List.nodup_cons]
      refine ⟨?_, ih h.2⟩
      intro hmem
      rcases (Obj.keys_set rest k v a).1 hmem with h1 | h1
      · exact hk h1
      · exact h.1 h1

/-! ## What `deepmerge` does to keys and values -/

theorem mergeProperty_eq (am : Val → Val → Val) (target : Obj)
    (p : String × Val) : mergeProperty am target p = mergeValue am (Obj.get target p.1) p.2 := by
  obtain ⟨k, v⟩ := p
  simp [mergeProperty]

theorem has_mergeObject (am : Val → Val → Val) (target : Obj) (s : Obj) :
    ∀ (dst : Obj) (k : String),
      Obj.has (mergeObject am target dst s) k = true ↔ Obj.has dst k = true ∨ Obj.has s k = true := by
  induction s with
  | nil => intro dst k; simp [mergeObject, Obj.has_nil]
  | cons p rest ih =>
    intro dst k
    rw [mergeObject, ih, Obj.has_set, Obj.has_cons]
    tauto

theorem get_mergeObject_of_not_has (am : Val → Val → Val) (target : Obj)
    (s : Obj) :
    ∀ (dst : Obj) (k : String), Obj.has s k = false →
      Obj.get (mergeObject am target dst s) k = Obj.get dst k := by
  induction s with
  | nil => intro dst k _; simp [mergeObject]
  | cons p rest ih =>
    intro dst k h
    have h0 : ¬ (Obj.has (p :: rest) k = true) := by simp [h]
    rw [Obj.has_cons] at h0
    have h1 : ¬ p.1 = k := fun h2 => h0 (Or.inl h2)
    have h3 : Obj.has rest k = false := by
      cases hh : Obj.has rest k
      · rfl
      · exact absurd (Or.inr hh) h0
    rw [mergeObject, ih _ k h3, Obj.get_set]
    simp [h1]

theorem get_mergeObject (am : Val → Val → Val) (target : Obj) (s : Obj) :
    ∀ (dst : Obj) (k : String), (s.map Prod.fst).Nodup → Obj.has s k = true →
      Obj.get (mergeObject am target dst s) k = mergeValue am (Obj.get target k) (Obj.get s k) := by
  induction s with
  | nil => intro dst k _ h; simp [Obj.has_nil] at h
  | cons p rest ih =>
    intro dst k hnd h
    simp only [List.map_cons, List.nodup_cons] at hnd
    by_cases hk : p.1 = k
    · have hrest : Obj.has rest k = false := by
        cases hh : Obj.has rest k
        · rfl
        · exact absurd ((Obj.has_iff rest k).1 hh) (hk ▸ hnd.1)
      rw [mergeObject, get_mergeObject_of_not_has am target rest _ k hrest, Obj.get_set,
        mergeProperty_eq]
      obtain ⟨a, b⟩ := p
      simp only at hk
      subst hk
      simp [Obj.get]
    · have hrest : Obj.has rest k = true := by
        rcases (Obj.has_cons p rest k).1 h with h1 | h1
        · exact absurd h1 hk
        · exact h1
      rw [mergeObject, ih _ k hnd.2 hrest]
      obtain ⟨a, b⟩ := p
      simp only at hk
      simp [Obj.get, hk]

theorem has_merge (am : Val → Val → Val) (x y : Obj) (k : String) :
    Obj.has (merge am x y) k = true ↔ Obj.has x k = true ∨ Obj.has y k = true :=
  has_mergeObject am x y x k

theorem has_stripSys (sys : Obj) (k : String) :
    Obj.has (stripSys sys) k = true ↔ Obj.has sys k = true ∧ k ≠ "space" ∧ k ≠ "contentType" := by
  unfold stripSys
  rw [Obj.has_delete, Obj.has_delete]
  tauto

theorem get_stripSys (sys : Obj) (k : String) (h1 : k ≠ "space") (h2 : k ≠ "contentType") :
    Obj.get (stripSys sys) k = Obj.get sys k := by
  unfold stripSys
  rw [Obj.get_delete, Obj.get_delete]
  simp [h1, h2]

/-! ## The resolved field mapping -/

theorem resolved_fold_keys (locale : LocaleSpec) (fields : List (String × Obj)) :
    ∀ (acc : Obj) (k : String),
      Obj.has (fields.foldl (fun entry p => Obj.set entry p.1 (_getLocaleString p.2 locale)) acc) k
          = true
        ↔ Obj.has acc k = true ∨ k ∈ fields.map Prod.fst := by
  induction fields with
  | nil => intro acc k; simp
  | cons p rest ih =>
    intro acc k
    rw [List.foldl_cons, ih, Obj.has_set]
    simp only [List.map_cons, List.mem_cons]
    constructor
    · rintro ((h | h) | h)
      · exact Or.inr (Or.inl h.symm)
      · exact Or.inl h
      · exact Or.inr (Or.inr h)
    · rintro (h | h | h)
      · exact Or.inl (Or.inr h)
      · exact Or.inl (Or.inl h.symm)
      · exact Or.inr h

theorem resolved_fold_nodup (locale : LocaleSpec) (fields : List (String × Obj)) :
    ∀ acc : Obj, (acc.map Prod.fst).Nodup →
      ((fields.foldl (fun entry p => Obj.set entry p.1 (_getLocaleString p.2 locale)) acc).map
        Prod.fst).Nodup := by
  induction fields with
  | nil => intro acc h; simpa using h
  | cons p rest ih =>
    intro acc h
    rw [List.foldl_cons]
    exact ih _ (Obj.nodup_set acc _ _ h)

theorem has_getFieldsForLocale (fields : List (String × Obj)) (locale : LocaleSpec)
    (k : String) :
    Obj.has (_getFieldsForLocale fields locale) k = true
      ↔ k = "locale" ∨ k ∈ fields.map Prod.fst := by
  unfold _getFieldsForLocale
  rw [Obj.has_set, resolved_fold_keys]
  simp only [Obj.has_nil, Bool.false_eq_true, false_or]
  constructor
  · rintro (h | h)
    · exact Or.inl h.symm
    · exact Or.inr h
  · rintro (h | h)
    · exact Or.inl h.symm
    · exact Or.inr h

theorem nodup_getFieldsForLocale (fields : List (String × Obj)) (locale : LocaleSpec) :
    ((_getFieldsForLocale fields locale).map Prod.fst).Nodup := by
  unfold _getFieldsForLocale
  exact Obj.nodup_set _ _ _ (resolved_fold_nodup locale fields [] (by simp))

theorem get_locale_getFieldsForLocale (fields : List (String × Obj)) (locale : LocaleSpec) :
    Obj.get (_getFieldsForLocale fields locale) "locale" = locale.first := by
  unfold _getFieldsForLocale
  rw [Obj.get_set]
  simp

theorem has_fieldsObj (entry : Entry) (k : String) :
    Obj.has entry.fieldsObj k = true ↔ k ∈ entry.fields.map Prod.fst := by
  rw [Obj.has_iff]
  simp [Entry.fieldsObj]

theorem resolved_fold_get_of_not_mem (locale : LocaleSpec) (fields : List (String × Obj)) :
    ∀ (acc : Obj) (k : String), k ∉ fields.map Prod.fst →
      Obj.get (fields.foldl (fun entry p => Obj.set entry p.1 (_getLocaleString p.2 locale)) acc) k
        = Obj.get acc k := by
  induction fields with
  | nil => intro acc k _; rfl
  | cons p rest ih =>
    intro acc k h
    simp only [List.map_cons, List.mem_cons, not_or] at h
    rw [List.foldl_cons, ih _ k h.2, Obj.get_set]
    have h1 : ¬ p.1 = k := fun h2 => h.1 h2.symm
    simp [h1]

theorem resolved_fold_get (locale : LocaleSpec) (fields : List (String × Obj)) :
    ∀ (acc : Obj) (k : String) (fm : Obj), (fields.map Prod.fst).Nodup → (k, fm) ∈ fields →
      Obj.get (fields.foldl (fun entry p => Obj.set entry p.1 (_getLocaleString p.2 locale)) acc) k
        = _getLocaleString fm locale := by
  induction fields with
  | nil => intro acc k fm _ h; simp at h
  | cons p rest ih =>
    intro acc k fm hnd h
    simp only [List.map_cons, List.nodup_cons] at hnd
    rw [List.foldl_cons]
    rcases List.mem_cons.1 h with h1 | h1
    · subst h1
      rw [resolved_fold_get_of_not_mem locale rest _ k hnd.1, Obj.get_set]
      simp
    · exact ih _ k fm hnd.2 h1

theorem get_getFieldsForLocale (fields : List (String × Obj)) (locale : LocaleSpec)
    (k : String) (fm : Obj) (hnd : (fields.map Prod.fst).Nodup) (hmem : (k, fm) ∈ fields)
    (hk : k ≠ "locale") :
    Obj.get (_getFieldsForLocale fields locale) k = _getLocaleString fm locale := by
  unfold _getFieldsForLocale
  rw [Obj.get_set, resolved_fold_get locale fields [] k fm hnd hmem]
  have h1 : ¬ "locale" = k := fun h2 => hk h2.symm
  simp [h1]

theorem localeStep_undef_of_absent (field : Obj) (cs : List String)
    (h : ∀ c ∈ cs, Obj.has field c = false) :
    cs.foldl (localeStep field) Val.undef = Val.undef := by
  induction cs with
  | nil => rfl
  | cons c rest ih =>
    have hc : Obj.get field c = Val.undef :=
      Obj.get_of_not_has field c (h c (List.mem_cons_self c rest))
    rw [List.foldl_cons]
    have hstep : localeStep field Val.undef c = Val.undef := by
      simp [localeStep, hc, truthy]
    rw [hstep]
    exact ih (fun c' hc' => h c' (List.mem_cons_of_mem c hc'))

theorem mem_getEntries_localized (am : Val → Val → Val) (ls : List LocaleSpec)
    (es : List Entry) (r : Val) (h : r ∈ (es.map (localizedRecords am ls)).flatten) :
    ∃ e ∈ es, ∃ l ∈ ls,
      r = Val.obj (merge am (stripSys e.sys) (_getFieldsForLocale e.fields l)) := by
  simp only [List.mem_flatten, List.mem_map] at h
  obtain ⟨rec, ⟨e, he, rfl⟩, hr⟩ := h
  simp only [localizedRecords, List.mem_map] at hr
  obtain ⟨l, hl, rfl⟩ := hr
  exact ⟨e, he, l, hl, rfl⟩

theorem not_has_of_not (o : Obj) (k : String) (h : ¬ (Obj.has o k = true)) :
    Obj.has o k = false := by
  cases hh : Obj.has o k
  · rfl
  · exact absurd hh h

theorem mergeValue_obj_obj (am : Val → Val → Val) (t s : Obj) :
    mergeValue am (Val.obj t) (Val.obj s) = Val.obj (merge am t s) := rfl

theorem mergeValue_arrayMet (am : Val → Val → Val) (tv v : Val)
    (h : arrayMet tv v = true) : mergeValue am tv v = am tv v := by
  cases v with
  | obj s =>
    cases tv with
    | arr t => rfl
    | _ => simp [arrayMet] at h
  | arr s =>
    have ht : truthy tv = true := by simpa [arrayMet] using h
    simp [mergeValue, ht]
  | _ => simp [arrayMet] at h

theorem mergeValue_otherwise (am : Val → Val → Val) (tv v : Val)
    (hobj : ∀ t s, ¬ (tv = Val.obj t ∧ v = Val.obj s))
    (harr : arrayMet tv v = false) :
    mergeValue am tv v = v := by
  cases v with
  | obj s =>
    cases tv with
    | obj t => exact absurd ⟨rfl, rfl⟩ (hobj t s)
    | arr t => simp [arrayMet] at harr
    | _ => rfl
  | arr s =>
    have ht : truthy tv = false := by simpa [arrayMet] using harr
    simp [mergeValue, ht]
  | _ => rfl

theorem get_merge_resolved (am : Val → Val → Val) (sys : Obj)
    (fields : List (String × Obj)) (locale : LocaleSpec) (k : String)
    (h : Obj.has (_getFieldsForLocale fields locale) k = true) :
    Obj.get (merge am sys (_getFieldsForLocale fields locale)) k
      = mergeValue am (Obj.get sys k) (Obj.get (_getFieldsForLocale fields locale) k) :=
  get_mergeObject am sys _ sys k (nodup_getFieldsForLocale fields locale) h

/-! ## Claims -/

/-- C1: for every list of m entries delivered by the delegate and every configured locale list
of n locale specifications, `getEntries` fulfils, and the sequence it fulfils with has exactly
m * n records. -/
theorem getEntries_length_localized {ε : Type} (am : Val → Val → Val)
    (ls : List LocaleSpec) (es : List Entry) :
    ∃ rs : List Val,
      getEntries (ε := ε) am (some ls) (Except.ok es) = Except.ok rs
        ∧ rs.length = es.length * ls.length := by
  refine ⟨_, getEntries_localized am ls es, ?_⟩
  exact flatten_map_length (localizedRecords am ls) ls.length (localizedRecords_length am ls) es

/-- C2: the output of `getEntries` on the localized path is in entry-major, locale-minor order:
for i < m and j < n the record at index i * n + j is the merge of the stripped sys block of
entry i with the fields of entry i resolved under the j-th locale specification. -/
theorem getEntries_entry_major {ε : Type} (am : Val → Val → Val)
    (ls : List LocaleSpec) (es : List Entry) (i j : Nat)
    (hi : i < es.length) (hj : j < ls.length) :
    ∃ rs : List Val,
      getEntries (ε := ε) am (some ls) (Except.ok es) = Except.ok rs
        ∧ rs[i * ls.length + j]?
            = some (Val.obj (merge am (stripSys es[i].sys)
                (_getFieldsForLocale es[i].fields ls[j]))) :=
  ⟨_, getEntries_localized am ls es, localized_index am ls es i j hi hj⟩

/-- C2, at the example of the specification: the entry with title `{en: "Hello", de: "Hallo"}`
under the locales `[["en"], ["de"]]` has the "Hello"/en record at index 0 and the "Hallo"/de
record at index 1. -/
theorem getEntries_entry_major_witness :
    (∃ rs : List Val,
      getEntries (ε := Unit) concatMerge (some enDe) (Except.ok [helloEntry]) = Except.ok rs
        ∧ rs[0 * 2 + 0]?
            = some (Val.obj [("id", Val.str "1"), ("title", Val.str "Hello"),
                ("locale", Val.str "en")]))
    ∧ (∃ rs : List Val,
      getEntries (ε := Unit) concatMerge (some enDe) (Except.ok [helloEntry]) = Except.ok rs
        ∧ rs[0 * 2 + 1]?
            = some (Val.obj [("id", Val.str "1"), ("title", Val.str "Hallo"),
                ("locale", Val.str "de")])) :=
  ⟨getEntries_entry_major concatMerge enDe [helloEntry] 0 0 (by decide) (by decide),
   getEntries_entry_major concatMerge enDe [helloEntry] 0 1 (by decide) (by decide)⟩

/-- C7: when no locale list is configured, `getEntries` over m entries fulfils with exactly m
records in input order, the i-th being the merge of the sys block of entry i without `space` and
`contentType` with the raw `fields` block of entry i, whose values are the per-locale maps. -/
theorem getEntries_unlocalized_records {ε : Type} (am : Val → Val → Val)
    (es : List Entry) :
    ∃ rs : List Val,
      getEntries (ε := ε) am none (Except.ok es) = Except.ok rs
        ∧ rs.length = es.length
        ∧ rs = es.map (fun e =>
            Val.obj (merge am (Obj.delete (Obj.delete e.sys "space") "contentType")
              (e.fields.map (fun p => (p.1, Val.obj p.2))))) := by
  refine ⟨_, getEntries_unlocalized am es, by simp, ?_⟩
  rfl

/-- C10: when the delegate's `getEntries` call fails with an error e, the promise returned by
`getEntries` fails with that same error e, whatever the locale configuration, and is not
fulfilled with any sequence of records. -/
theorem getEntries_rejects_with_cause {ε : Type} (am : Val → Val → Val)
    (locales : Option (List LocaleSpec)) (e : ε) :
    getEntries am locales (Except.error e) = Except.error e
      ∧ ∀ rs : List Val, getEntries am locales (Except.error e) ≠ Except.ok rs := by
  refine ⟨rfl, ?_⟩
  intro rs h
  simp [getEntries] at h

/-- C3: at the single-code specification "en" the `locale` key written by `_getFieldsForLocale`
is `locale[0]`, the first character "e" of the code and not the code "en"; at a list
specification it is the first code of the list. -/
theorem getFieldsForLocale_locale_of_single_code :
    Obj.get (_getFieldsForLocale helloEntry.fields (LocaleSpec.code "en")) "locale" = Val.str "e"
      ∧ Val.str "e" ≠ Val.str "en"
      ∧ Obj.get (_getFieldsForLocale helloEntry.fields (LocaleSpec.codes ["en", "de"])) "locale"
          = Val.str "en" := by
  refine ⟨rfl, ?_, rfl⟩
  intro h
  injection h with h
  exact absurd h (by decide)

/-- C4, as stated, fails: an entry whose `fields` block has a field named `space` yields a
record with the key `space`, with no locales configured and with the locale list `[["en"]]`. -/
theorem getEntries_space_field_kept :
    (∃ r : Obj,
      getEntries (ε := Unit) concatMerge none (Except.ok [spaceFieldEntry])
          = Except.ok [Val.obj r]
        ∧ Obj.has r "space" = true)
    ∧ (∃ r : Obj,
      getEntries (ε := Unit) concatMerge (some [LocaleSpec.codes ["en"]])
          (Except.ok [spaceFieldEntry]) = Except.ok [Val.obj r]
        ∧ Obj.has r "space" = true) :=
  ⟨⟨_, rfl, rfl⟩, ⟨_, rfl, rfl⟩⟩

/-- C4, amended: for every entry set in which no entry has a field named `space` or
`contentType`, and every locale configuration (configured or not), every record returned by
`getEntries` is an object without a key `space` and without a key `contentType`. -/
theorem getEntries_no_space_contentType {ε : Type} (am : Val → Val → Val)
    (locales : Option (List LocaleSpec)) (es : List Entry)
    (hfields : ∀ e ∈ es,
      "space" ∉ e.fields.map Prod.fst ∧ "contentType" ∉ e.fields.map Prod.fst) :
    ∃ rs : List Val,
      getEntries (ε := ε) am locales (Except.ok es) = Except.ok rs
        ∧ ∀ r ∈ rs, ∃ o : Obj,
            r = Val.obj o ∧ Obj.has o "space" = false ∧ Obj.has o "contentType" = false := by
  cases locales with
  | none =>
    refine ⟨_, getEntries_unlocalized am es, ?_⟩
    intro r hr
    obtain ⟨e, he, rfl⟩ := List.mem_map.1 hr
    refine ⟨_, rfl, ?_, ?_⟩
    · apply not_has_of_not
      rw [has_merge, has_stripSys, has_fieldsObj]
      rintro (h | h)
      · exact h.2.1 rfl
      · exact (hfields e he).1 h
    · apply not_has_of_not
      rw [has_merge, has_stripSys, has_fieldsObj]
      rintro (h | h)
      · exact h.2.2 rfl
      · exact (hfields e he).2 h
  | some ls =>
    refine ⟨_, getEntries_localized am ls es, ?_⟩
    intro r hr
    obtain ⟨e, he, l, _, rfl⟩ := mem_getEntries_localized am ls es r hr
    refine ⟨_, rfl, ?_, ?_⟩
    · apply not_has_of_not
      rw [has_merge, has_stripSys, has_getFieldsForLocale]
      rintro (h | h | h)
      · exact h.2.1 rfl
      · exact absurd h (by decide)
      · exact (hfields e he).1 h
    · apply not_has_of_not
      rw [has_merge, has_stripSys, has_getFieldsForLocale]
      rintro (h | h | h)
      · exact h.2.2 rfl
      · exact absurd h (by decide)
      · exact (hfields e he).2 h

/-- C4, amended, at the entry of the end-to-end example under the locales `[["en"], ["de"]]`. -/
theorem getEntries_no_space_contentType_witness :
    (∀ e ∈ [helloEntry],
      "space" ∉ e.fields.map Prod.fst ∧ "contentType" ∉ e.fields.map Prod.fst)
    ∧ ∃ rs : List Val,
      getEntries (ε := Unit) concatMerge (some enDe) (Except.ok [helloEntry]) = Except.ok rs
        ∧ ∀ r ∈ rs, ∃ o : Obj,
            r = Val.obj o ∧ Obj.has o "space" = false ∧ Obj.has o "contentType" = false :=
  ⟨by decide,
   getEntries_no_space_contentType concatMerge (some enDe) [helloEntry] (by decide)⟩

/-- C5: `_getLocaleString` passes over a candidate whose value is present but falsy: for
`{en: false, de: true}` and `["en", "de"]` it returns `true`, for `{en: 0}` and `["en"]` and
for `{en: ""}` and `["en"]` it returns `undefined`; for `{en: "A", fr: "B"}` and
`["de", "fr", "en"]` it returns "B". -/
theorem getLocaleString_skips_falsy :
    _getLocaleString [("en", Val.bool false), ("de", Val.bool true)]
        (LocaleSpec.codes ["en", "de"]) = Val.bool true
      ∧ _getLocaleString [("en", Val.num 0)] (LocaleSpec.codes ["en"]) = Val.undef
      ∧ _getLocaleString [("en", Val.str "")] (LocaleSpec.codes ["en"]) = Val.undef
      ∧ _getLocaleString [("en", Val.str "A"), ("fr", Val.str "B")]
          (LocaleSpec.codes ["de", "fr", "en"]) = Val.str "B" :=
  ⟨rfl, rfl, rfl, rfl⟩

/-- C6: for every field locale map and every locale specification none of whose candidate
codes is present in the map, `_getLocaleString` returns `undefined`; and `getEntries` still
emits the record of every entry i and specification j where a field k of the entry has such a
map: the record sits at index i * n + j, has the key k, and holds `undefined` there. -/
theorem getLocaleString_absent {ε : Type} (am : Val → Val → Val)
    (field : Obj) (locale : LocaleSpec)
    (habs : ∀ c ∈ locale.candidates, Obj.has field c = false) :
    _getLocaleString field locale = Val.undef
      ∧ ∀ (es : List Entry) (ls : List LocaleSpec) (i j : Nat)
          (hi : i < es.length) (hj : j < ls.length) (k : String),
          (es[i].fields.map Prod.fst).Nodup → (k, field) ∈ es[i].fields → k ≠ "locale" →
          ls[j] = locale →
          ∃ (rs : List Val) (r : Obj),
            getEntries (ε := ε) am (some ls) (Except.ok es) = Except.ok rs
              ∧ rs.length = es.length * ls.length
              ∧ rs[i * ls.length + j]? = some (Val.obj r)
              ∧ Obj.has r k = true
              ∧ Obj.get r k = Val.undef := by
  have hundef : _getLocaleString field locale = Val.undef :=
    localeStep_undef_of_absent field locale.candidates habs
  refine ⟨hundef, ?_⟩
  intro es ls i j hi hj k hnd hmem hk hl
  have hhas : Obj.has (_getFieldsForLocale es[i].fields ls[j]) k = true := by
    rw [has_getFieldsForLocale]
    exact Or.inr (List.mem_map.2 ⟨(k, field), hmem, rfl⟩)
  refine ⟨_, _, getEntries_localized am ls es, ?_, localized_index am ls es i j hi hj, ?_, ?_⟩
  · exact flatten_map_length (localizedRecords am ls) ls.length
      (localizedRecords_length am ls) es
  · rw [has_merge]
    exact Or.inr hhas
  · rw [get_merge_resolved am _ _ _ k hhas,
      get_getFieldsForLocale es[i].fields ls[j] k field hnd hmem hk, hl, hundef]
    rfl

/-- C6, at the example of the specification: `{en: "A"}` with `["de", "fr"]` resolves to
`undefined`, and the record of the entry with that field is still emitted. -/
theorem getLocaleString_absent_witness :
    (∀ c ∈ (LocaleSpec.codes ["de", "fr"]).candidates,
        Obj.has [("en", Val.str "A")] c = false)
    ∧ _getLocaleString [("en", Val.str "A")] (LocaleSpec.codes ["de", "fr"]) = Val.undef
    ∧ ∃ (rs : List Val) (r : Obj),
        getEntries (ε := Unit) concatMerge (some [LocaleSpec.codes ["de", "fr"]])
            (Except.ok [subtitleEntry]) = Except.ok rs
          ∧ rs.length = 1 * 1
          ∧ rs[0 * 1 + 0]? = some (Val.obj r)
          ∧ Obj.has r "subtitle" = true
          ∧ Obj.get r "subtitle" = Val.undef :=
  ⟨by decide,
   (getLocaleString_absent (ε := Unit) concatMerge [("en", Val.str "A")]
      (LocaleSpec.codes ["de", "fr"]) (by decide)).1,
   (getLocaleString_absent (ε := Unit) concatMerge [("en", Val.str "A")]
      (LocaleSpec.codes ["de", "fr"]) (by decide)).2
      [subtitleEntry] [LocaleSpec.codes ["de", "fr"]] 0 0 (by decide) (by decide) "subtitle"
      (by decide) (by simp [subtitleEntry]) (by decide) rfl⟩

/-- C8, as stated, fails: for the entry of the end-to-end example, `getEntries` with
`locales = []` fulfils with no record, and with no locales it fulfils with one. -/
theorem getEntries_empty_locales_differs :
    getEntries (ε := Unit) concatMerge (some []) (Except.ok [helloEntry]) = Except.ok []
      ∧ getEntries (ε := Unit) concatMerge none (Except.ok [helloEntry])
          = Except.ok [Val.obj [("id", Val.str "1"),
              ("title", Val.obj [("en", Val.str "Hello"), ("de", Val.str "Hallo")])]]
      ∧ getEntries (ε := Unit) concatMerge (some []) (Except.ok [helloEntry])
          ≠ getEntries (ε := Unit) concatMerge none (Except.ok [helloEntry]) := by
  refine ⟨rfl, rfl, ?_⟩
  intro h
  rw [show getEntries (ε := Unit) concatMerge (some []) (Except.ok [helloEntry])
      = Except.ok [] from rfl, getEntries_unlocalized] at h
  injection h with h
  simp at h

/-- C8, amended: an empty locale list is a configured list of zero specifications: for every
list of m entries, `getEntries` with `locales = []` fulfils with the empty sequence, while with
no locales it fulfils with m records; the two outcomes are equal exactly when m = 0. -/
theorem getEntries_empty_locales {ε : Type} (am : Val → Val → Val)
    (es : List Entry) :
    getEntries (ε := ε) am (some []) (Except.ok es) = Except.ok []
      ∧ (∃ rs : List Val,
          getEntries (ε := ε) am none (Except.ok es) = Except.ok rs ∧ rs.length = es.length)
      ∧ (getEntries (ε := ε) am (some []) (Except.ok es)
            = getEntries (ε := ε) am none (Except.ok es) ↔ es = []) := by
  have hempty : getEntries (ε := ε) am (some []) (Except.ok es) = Except.ok [] := by
    rw [getEntries_localized]
    have hlen := flatten_map_length (localizedRecords am []) 0
      (localizedRecords_length am []) es
    simp only [Nat.mul_zero, List.length_eq_zero] at hlen
    rw [hlen]
  refine ⟨hempty, ⟨_, getEntries_unlocalized am es, by simp⟩, ?_⟩
  rw [hempty, getEntries_unlocalized]
  constructor
  · intro h
    injection h with h
    have h2 := congrArg List.length h
    simp only [List.length_nil, List.length_map] at h2
    exact List.length_eq_zero.1 h2.symm
  · rintro rfl
    rfl

/-- C9, as stated, fails: for an entry whose sys block and resolved fields both hold an object
under `environment`, the record holds under that key the recursive merge of the two objects,
which is not the value from the resolved field mapping. -/
theorem getEntries_overlap_is_deep_merge :
    ∃ r : Obj,
      getEntries (ε := Unit) concatMerge (some [LocaleSpec.codes ["en"]])
          (Except.ok [environmentEntry]) = Except.ok [Val.obj r]
        ∧ Obj.has (stripSys environmentEntry.sys) "environment" = true
        ∧ Obj.get (_getFieldsForLocale environmentEntry.fields (LocaleSpec.codes ["en"]))
            "environment" = Val.obj [("name", Val.str "staging")]
        ∧ Obj.get r "environment"
            = Val.obj [("id", Val.str "master"), ("name", Val.str "staging")]
        ∧ Obj.get r "environment"
            ≠ Obj.get (_getFieldsForLocale environmentEntry.fields (LocaleSpec.codes ["en"]))
                "environment" := by
  refine ⟨_, rfl, rfl, rfl, rfl, ?_⟩
  intro h
  have h2 : Val.obj [("id", Val.str "master"), ("name", Val.str "staging")]
      = Val.obj [("name", Val.str "staging")] := h
  injection h2 with h2
  simp at h2

/-- C9, amended: in the localized path the record at index i * n + j is the `deepmerge` of the
stripped sys block with the resolved field mapping: for every key present in both, the record
holds the recursive merge of the two values when both are objects, what the package makes of
the two values when an array is involved (`arrayMet`), and exactly the value from the resolved
field mapping in every other case. -/
theorem getEntries_overlap_value {ε : Type} (am : Val → Val → Val)
    (ls : List LocaleSpec) (es : List Entry) (i j : Nat)
    (hi : i < es.length) (hj : j < ls.length) (k : String)
    (hsys : Obj.has (stripSys es[i].sys) k = true)
    (hres : Obj.has (_getFieldsForLocale es[i].fields ls[j]) k = true) :
    ∃ (rs : List Val) (r : Obj),
      getEntries (ε := ε) am (some ls) (Except.ok es) = Except.ok rs
        ∧ rs[i * ls.length + j]? = some (Val.obj r)
        ∧ (∀ t s : Obj, Obj.get (stripSys es[i].sys) k = Val.obj t →
            Obj.get (_getFieldsForLocale es[i].fields ls[j]) k = Val.obj s →
            Obj.get r k = Val.obj (merge am t s))
        ∧ (arrayMet (Obj.get (stripSys es[i].sys) k)
              (Obj.get (_getFieldsForLocale es[i].fields ls[j]) k) = true →
            Obj.get r k = am (Obj.get (stripSys es[i].sys) k)
              (Obj.get (_getFieldsForLocale es[i].fields ls[j]) k))
        ∧ ((∀ t s, ¬ (Obj.get (stripSys es[i].sys) k = Val.obj t
              ∧ Obj.get (_getFieldsForLocale es[i].fields ls[j]) k = Val.obj s)) →
            arrayMet (Obj.get (stripSys es[i].sys) k)
              (Obj.get (_getFieldsForLocale es[i].fields ls[j]) k) = false →
            Obj.get r k = Obj.get (_getFieldsForLocale es[i].fields ls[j]) k) := by
  have _ := hsys
  refine ⟨_, _, getEntries_localized am ls es, localized_index am ls es i j hi hj, ?_, ?_, ?_⟩
  · intro t s ht hs
    rw [get_merge_resolved am _ _ _ k hres, ht, hs, mergeValue_obj_obj]
  · intro h
    rw [get_merge_resolved am _ _ _ k hres]
    exact mergeValue_arrayMet am _ _ h
  · intro hobj harr
    rw [get_merge_resolved am _ _ _ k hres]
    exact mergeValue_otherwise am _ _ hobj harr

/-- C9, amended, at an entry whose sys block and resolved fields both hold an object under
`environment`: the record holds the merge of the two objects. -/
theorem getEntries_overlap_value_witness :
    Obj.has (stripSys environmentEntry.sys) "environment" = true
    ∧ Obj.has (_getFieldsForLocale environmentEntry.fields (LocaleSpec.codes ["en"]))
        "environment" = true
    ∧ ∃ (rs : List Val) (r : Obj),
        getEntries (ε := Unit) concatMerge (some [LocaleSpec.codes ["en"]])
            (Except.ok [environmentEntry]) = Except.ok rs
          ∧ rs[0 * 1 + 0]? = some (Val.obj r)
          ∧ Obj.get r "environment"
              = Val.obj [("id", Val.str "master"), ("name", Val.str "staging")] := by
  refine ⟨rfl, rfl, ?_⟩
  obtain ⟨rs, r, h1, h2, h3, _, _⟩ :=
    getEntries_overlap_value (ε := Unit) concatMerge [LocaleSpec.codes ["en"]]
      [environmentEntry] 0 0 (by decide) (by decide) "environment" rfl rfl
  exact ⟨rs, r, h1, h2, h3 _ _ rfl rfl⟩

/-! ## Locale fallback -/

theorem localeStep_of_truthy (field : Obj) (acc : Val) (c : String)
    (h : truthy acc = true) : localeStep field acc c = acc := by
  simp [localeStep, h]

theorem localeFold_of_truthy (field : Obj) (cs : List String) :
    ∀ acc : Val, truthy acc = true → cs.foldl (localeStep field) acc = acc := by
  induction cs with
  | nil => intro acc _; rfl
  | cons c rest ih =>
    intro acc h
    rw [List.foldl_cons, localeStep_of_truthy field acc c h]
    exact ih acc h

theorem localeStep_undef (field : Obj) (c : String) :
    localeStep field Val.undef c
      = if truthy (Obj.get field c) then Obj.get field c else Val.undef := by
  simp [localeStep, truthy]

theorem localeFold_cons_truthy (field : Obj) (c : String) (rest : List String)
    (h : truthy (Obj.get field c) = true) :
    (c :: rest).foldl (localeStep field) Val.undef = Obj.get field c := by
  rw [List.foldl_cons, localeStep_undef, if_pos h]
  exact localeFold_of_truthy field rest _ h

theorem localeFold_cons_falsy (field : Obj) (c : String) (rest : List String)
    (h : truthy (Obj.get field c) = false) :
    (c :: rest).foldl (localeStep field) Val.undef
      = rest.foldl (localeStep field) Val.undef := by
  rw [List.foldl_cons, localeStep_undef]
  simp [h]

theorem localeFold_eq_find (field : Obj) (cs : List String) :
    cs.foldl (localeStep field) Val.undef
      = ((cs.find? (fun c => truthy (Obj.get field c))).map (Obj.get field)).getD Val.undef := by
  induction cs with
  | nil => rfl
  | cons c rest ih =>
    cases h : truthy (Obj.get field c) with
    | true => rw [localeFold_cons_truthy field c rest h]; simp [List.find?_cons, h]
    | false => rw [localeFold_cons_falsy field c rest h, ih]; simp [List.find?_cons, h]

theorem localeFold_undef_or_truthy (field : Obj) (cs : List String) :
    cs.foldl (localeStep field) Val.undef = Val.undef
      ∨ truthy (cs.foldl (localeStep field) Val.undef) = true := by
  induction cs with
  | nil => exact Or.inl rfl
  | cons c rest ih =>
    cases h : truthy (Obj.get field c) with
    | true => rw [localeFold_cons_truthy field c rest h]; exact Or.inr h
    | false => rw [localeFold_cons_falsy field c rest h]; exact ih

/-- C11: a single locale code is normalised to a one-element list: for every field locale map
f and every locale code c, `_getLocaleString(f, c)` equals `_getLocaleString(f, [c])`; both are
the value of f at c when that value is truthy and `undefined` otherwise. -/
theorem getLocaleString_single_code (f : Obj) (c : String) :
    _getLocaleString f (LocaleSpec.code c) = _getLocaleString f (LocaleSpec.codes [c])
      ∧ _getLocaleString f (LocaleSpec.code c)
          = if truthy (Obj.get f c) then Obj.get f c else Val.undef := by
  refine ⟨rfl, ?_⟩
  show [c].foldl (localeStep f) Val.undef = _
  rw [List.foldl_cons, List.foldl_nil, localeStep_undef]

/-- C15: for every field locale map and every ordered candidate list, `_getLocaleString` returns
the value at the first candidate code whose value in the map is truthy, and `undefined` when
there is none; a leading candidate whose value is falsy (present or not) is skipped in favour
of the candidates after it. -/
theorem getLocaleString_first_truthy (f : Obj) (cs : List String) :
    _getLocaleString f (LocaleSpec.codes cs)
        = ((cs.find? (fun c => truthy (Obj.get f c))).map (Obj.get f)).getD Val.undef
      ∧ ∀ c : String, truthy (Obj.get f c) = false →
          _getLocaleString f (LocaleSpec.codes (c :: cs))
            = _getLocaleString f (LocaleSpec.codes cs) :=
  ⟨localeFold_eq_find f cs, fun c h => localeFold_cons_falsy f c cs h⟩

/-- C15, at a map with falsy values: in `{en: 0, fr: "", it: false, nl: null, de: 5}` the
candidates `en`, `fr`, `it` and `nl` are skipped and `["en", "fr", "it", "nl", "de"]` resolves
to 5. -/
theorem getLocaleString_first_truthy_witness :
    truthy (Obj.get [("en", Val.num 0), ("fr", Val.str ""), ("it", Val.bool false),
        ("nl", Val.null), ("de", Val.num 5)] "en") = false
    ∧ _getLocaleString [("en", Val.num 0), ("fr", Val.str ""), ("it", Val.bool false),
          ("nl", Val.null), ("de", Val.num 5)]
          (LocaleSpec.codes ["en", "fr", "it", "nl", "de"])
        = _getLocaleString [("en", Val.num 0), ("fr", Val.str ""), ("it", Val.bool false),
          ("nl", Val.null), ("de", Val.num 5)] (LocaleSpec.codes ["fr", "it", "nl", "de"])
    ∧ _getLocaleString [("en", Val.num 0), ("fr", Val.str ""), ("it", Val.bool false),
          ("nl", Val.null), ("de", Val.num 5)]
          (LocaleSpec.codes ["en", "fr", "it", "nl", "de"]) = Val.num 5 :=
  ⟨rfl,
   (getLocaleString_first_truthy [("en", Val.num 0), ("fr", Val.str ""), ("it", Val.bool false),
      ("nl", Val.null), ("de", Val.num 5)] ["fr", "it", "nl", "de"]).2 "en" rfl,
   rfl⟩

/-- C16: adding fallbacks never changes an already resolved value: for every field locale map
f and candidate lists L and L', if `_getLocaleString(f, L)` is not `undefined` then
`_getLocaleString(f, L ++ L')` equals it, and if it is `undefined` then
`_getLocaleString(f, L ++ L')` equals `_getLocaleString(f, L')`. -/
theorem getLocaleString_append (f : Obj) (L L' : List String) :
    (_getLocaleString f (LocaleSpec.codes L) ≠ Val.undef →
        _getLocaleString f (LocaleSpec.codes (L ++ L')) = _getLocaleString f (LocaleSpec.codes L))
      ∧ (_getLocaleString f (LocaleSpec.codes L) = Val.undef →
        _getLocaleString f (LocaleSpec.codes (L ++ L'))
          = _getLocaleString f (LocaleSpec.codes L')) := by
  have happ : _getLocaleString f (LocaleSpec.codes (L ++ L'))
      = L'.foldl (localeStep f) (_getLocaleString f (LocaleSpec.codes L)) := by
    simp [_getLocaleString, LocaleSpec.candidates, List.foldl_append]
  constructor
  · intro hne
    rw [happ]
    rcases localeFold_undef_or_truthy f L with h | h
    · exact absurd h hne
    · exact localeFold_of_truthy f L' _ h
  · intro hundef
    rw [happ, hundef]
    rfl

/-- C16, at `{en: "A", fr: "B"}`: `["fr"]` resolves to "B" and stays "B" with the fallback
`["en"]` added; `["de"]` resolves to `undefined`, and `["de", "en"]` resolves as `["en"]`. -/
theorem getLocaleString_append_witness :
    (_getLocaleString [("en", Val.str "A"), ("fr", Val.str "B")] (LocaleSpec.codes ["fr"])
        ≠ Val.undef
      ∧ _getLocaleString [("en", Val.str "A"), ("fr", Val.str "B")]
          (LocaleSpec.codes (["fr"] ++ ["en"]))
        = _getLocaleString [("en", Val.str "A"), ("fr", Val.str "B")] (LocaleSpec.codes ["fr"]))
    ∧ (_getLocaleString [("en", Val.str "A"), ("fr", Val.str "B")] (LocaleSpec.codes ["de"])
        = Val.undef
      ∧ _getLocaleString [("en", Val.str "A"), ("fr", Val.str "B")]
          (LocaleSpec.codes (["de"] ++ ["en"]))
        = _getLocaleString [("en", Val.str "A"), ("fr", Val.str "B")]
          (LocaleSpec.codes ["en"])) := by
  have hne : _getLocaleString [("en", Val.str "A"), ("fr", Val.str "B")]
      (LocaleSpec.codes ["fr"]) ≠ Val.undef := by
    intro h
    have h2 : Val.str "B" = Val.undef := h
    injection h2
  exact ⟨⟨hne,
    (getLocaleString_append [("en", Val.str "A"), ("fr", Val.str "B")] ["fr"] ["en"]).1 hne⟩,
    ⟨rfl,
    (getLocaleString_append [("en", Val.str "A"), ("fr", Val.str "B")] ["de"] ["en"]).2 rfl⟩⟩

/-! ## Keys carried from `sys` and keys written by the projection -/

theorem rawRecord_index (am : Val → Val → Val) (es : List Entry) (i : Nat)
    (hi : i < es.length) :
    (es.map (rawRecord am))[i]?
      = some (Val.obj (merge am (stripSys es[i].sys) es[i].fieldsObj)) := by
  simp [List.getElem?_map, List.getElem?_eq_getElem hi, rawRecord]

theorem get_merge_of_not_has (am : Val → Val → Val) (sys y : Obj) (k : String)
    (hy : Obj.has y k = false) (h1 : k ≠ "space") (h2 : k ≠ "contentType") :
    Obj.get (merge am (stripSys sys) y) k = Obj.get sys k := by
  unfold merge
  rw [get_mergeObject_of_not_has am (stripSys sys) y (stripSys sys) k hy, get_stripSys sys k h1 h2]

theorem has_merge_of_sys (am : Val → Val → Val) (sys y : Obj) (k : String)
    (hs : Obj.has sys k = true) (h1 : k ≠ "space") (h2 : k ≠ "contentType") :
    Obj.has (merge am (stripSys sys) y) k = true := by
  rw [has_merge, has_stripSys]
  exact Or.inl ⟨hs, h1, h2⟩

theorem not_has_resolved (fields : List (String × Obj)) (locale : LocaleSpec) (k : String)
    (hf : k ∉ fields.map Prod.fst) (hl : k ≠ "locale") :
    Obj.has (_getFieldsForLocale fields locale) k = false := by
  apply not_has_of_not
  rw [has_getFieldsForLocale]
  rintro (h | h)
  · exact hl h
  · exact hf h

theorem not_has_fieldsObj (entry : Entry) (k : String) (hf : k ∉ entry.fields.map Prod.fst) :
    Obj.has entry.fieldsObj k = false := by
  apply not_has_of_not
  rw [has_fieldsObj]
  exact hf

/-- C12: for every `fields` block (an object, so its field names are distinct) and every locale
specification, the mapping returned by `_getFieldsForLocale` has as keys exactly the field
keys of the block plus `locale`, and for every field key k other than `locale` its value at k
is `_getLocaleString(fields[k], locale)`. -/
theorem getFieldsForLocale_keys_values (fields : List (String × Obj)) (locale : LocaleSpec)
    (hnd : (fields.map Prod.fst).Nodup) :
    (∀ k : String,
        Obj.has (_getFieldsForLocale fields locale) k = true
          ↔ k ∈ fields.map Prod.fst ∨ k = "locale")
      ∧ ∀ (k : String) (fm : Obj), (k, fm) ∈ fields → k ≠ "locale" →
          Obj.get (_getFieldsForLocale fields locale) k = _getLocaleString fm locale := by
  constructor
  · intro k
    rw [has_getFieldsForLocale]
    exact Or.comm
  · intro k fm hmem hk
    exact get_getFieldsForLocale fields locale k fm hnd hmem hk

/-- C12, at the `fields` block `{title: {en: "Hello", de: "Hallo"}}` with `["fr", "de"]`: the
mapping has the key `title`, holding "Hallo", and the key `locale`. -/
theorem getFieldsForLocale_keys_values_witness :
    (helloEntry.fields.map Prod.fst).Nodup
    ∧ Obj.has (_getFieldsForLocale helloEntry.fields (LocaleSpec.codes ["fr", "de"])) "title"
        = true
    ∧ Obj.has (_getFieldsForLocale helloEntry.fields (LocaleSpec.codes ["fr", "de"])) "locale"
        = true
    ∧ Obj.get (_getFieldsForLocale helloEntry.fields (LocaleSpec.codes ["fr", "de"])) "title"
        = _getLocaleString [("en", Val.str "Hello"), ("de", Val.str "Hallo")]
            (LocaleSpec.codes ["fr", "de"])
    ∧ _getLocaleString [("en", Val.str "Hello"), ("de", Val.str "Hallo")]
        (LocaleSpec.codes ["fr", "de"]) = Val.str "Hallo" :=
  ⟨by decide,
   ((getFieldsForLocale_keys_values helloEntry.fields (LocaleSpec.codes ["fr", "de"])
      (by decide)).1 "title").2 (Or.inl (by decide)),
   ((getFieldsForLocale_keys_values helloEntry.fields (LocaleSpec.codes ["fr", "de"])
      (by decide)).1 "locale").2 (Or.inr rfl),
   (getFieldsForLocale_keys_values helloEntry.fields (LocaleSpec.codes ["fr", "de"])
      (by decide)).2 "title" _ (by simp [helloEntry]) (by decide),
   rfl⟩

/-- C13: every sys key of an entry other than `space` and `contentType` is carried into each of
that entry's records: when such a key k is neither a field name of the entry nor `locale`, the
record of the entry on the path without locales, and its record for every locale
specification on the localized path, have the key k and hold exactly the entry's sys value. -/
theorem getEntries_sys_key_carried {ε : Type} (am : Val → Val → Val) (es : List Entry)
    (i : Nat) (hi : i < es.length) (k : String)
    (hsys : Obj.has es[i].sys k = true) (h1 : k ≠ "space") (h2 : k ≠ "contentType")
    (hf : k ∉ es[i].fields.map Prod.fst) (hl : k ≠ "locale") :
    (∃ (rs : List Val) (r : Obj),
        getEntries (ε := ε) am none (Except.ok es) = Except.ok rs
          ∧ rs[i]? = some (Val.obj r)
          ∧ Obj.has r k = true
          ∧ Obj.get r k = Obj.get es[i].sys k)
      ∧ ∀ (ls : List LocaleSpec) (j : Nat), j < ls.length →
          ∃ (rs : List Val) (r : Obj),
            getEntries (ε := ε) am (some ls) (Except.ok es) = Except.ok rs
              ∧ rs[i * ls.length + j]? = some (Val.obj r)
              ∧ Obj.has r k = true
              ∧ Obj.get r k = Obj.get es[i].sys k := by
  constructor
  · exact ⟨_, _, getEntries_unlocalized am es, rawRecord_index am es i hi,
      has_merge_of_sys am _ _ k hsys h1 h2,
      get_merge_of_not_has am _ _ k (not_has_fieldsObj es[i] k hf) h1 h2⟩
  · intro ls j hj
    exact ⟨_, _, getEntries_localized am ls es, localized_index am ls es i j hi hj,
      has_merge_of_sys am _ _ k hsys h1 h2,
      get_merge_of_not_has am _ _ k (not_has_resolved es[i].fields ls[j] k hf hl) h1 h2⟩

/-- C13, at the entry with `sys = {id: "3", revision: 2}`: the key `revision` holds 2 in the
record without locales and in the record for the second of the locales `[["en"], ["de"]]`. -/
theorem getEntries_sys_key_carried_witness :
    (∃ (rs : List Val) (r : Obj),
        getEntries (ε := Unit) concatMerge none (Except.ok [localeFieldEntry]) = Except.ok rs
          ∧ rs[0]? = some (Val.obj r)
          ∧ Obj.has r "revision" = true
          ∧ Obj.get r "revision" = Val.num 2)
      ∧ ∃ (rs : List Val) (r : Obj),
          getEntries (ε := Unit) concatMerge (some enDe) (Except.ok [localeFieldEntry])
              = Except.ok rs
            ∧ rs[0 * 2 + 1]? = some (Val.obj r)
            ∧ Obj.has r "revision" = true
            ∧ Obj.get r "revision" = Val.num 2 :=
  ⟨(getEntries_sys_key_carried (ε := Unit) concatMerge [localeFieldEntry] 0 (by decide)
      "revision" rfl (by decide) (by decide) (by decide) (by decide)).1,
   (getEntries_sys_key_carried (ε := Unit) concatMerge [localeFieldEntry] 0 (by decide)
      "revision" rfl (by decide) (by decide) (by decide) (by decide)).2 enDe 1 (by decide)⟩

/-- C17: a content field that is itself named `locale` is never visible in localized output:
for every `fields` block and every locale specification given as a list, the `locale` value of
the mapping returned by `_getFieldsForLocale` is the first code of the list (`undefined` for
the empty list), whatever the block holds under `locale`; the same value is under `locale` in
the record that `getEntries` emits for that entry and specification. -/
theorem getFieldsForLocale_locale_shadowed (fields : List (String × Obj)) (c : String)
    (rest : List String) :
    Obj.get (_getFieldsForLocale fields (LocaleSpec.codes (c :: rest))) "locale" = Val.str c
      ∧ Obj.get (_getFieldsForLocale fields (LocaleSpec.codes [])) "locale" = Val.undef
      ∧ ∀ (ε : Type) (am : Val → Val → Val) (es : List Entry) (ls : List LocaleSpec)
          (i j : Nat) (hi : i < es.length) (hj : j < ls.length),
          es[i].fields = fields → ls[j] = LocaleSpec.codes (c :: rest) →
          ∃ (rs : List Val) (r : Obj),
            getEntries (ε := ε) am (some ls) (Except.ok es) = Except.ok rs
              ∧ rs[i * ls.length + j]? = some (Val.obj r)
              ∧ Obj.get r "locale" = Val.str c := by
  refine ⟨get_locale_getFieldsForLocale fields _, get_locale_getFieldsForLocale fields _, ?_⟩
  intro ε am es ls i j hi hj hfields hspec
  refine ⟨_, _, getEntries_localized am ls es, localized_index am ls es i j hi hj, ?_⟩
  have hhas : Obj.has (_getFieldsForLocale es[i].fields ls[j]) "locale" = true := by
    rw [has_getFieldsForLocale]
    exact Or.inl rfl
  rw [get_merge_resolved am _ _ _ "locale" hhas, get_locale_getFieldsForLocale, hspec]
  rfl

/-- C17, at the entry with the field `locale: {en: "Berlin"}` under `[["en", "de"]]`: the field
resolves to "Berlin", and the mapping and the record hold "en" under `locale`. -/
theorem getFieldsForLocale_locale_shadowed_witness :
    _getLocaleString [("en", Val.str "Berlin")] (LocaleSpec.codes ["en", "de"])
        = Val.str "Berlin"
    ∧ Obj.get (_getFieldsForLocale localeFieldEntry.fields (LocaleSpec.codes ["en", "de"]))
        "locale" = Val.str "en"
    ∧ ∃ (rs : List Val) (r : Obj),
        getEntries (ε := Unit) concatMerge (some [LocaleSpec.codes ["en", "de"]])
            (Except.ok [localeFieldEntry]) = Except.ok rs
          ∧ rs[0 * 1 + 0]? = some (Val.obj r)
          ∧ Obj.get r "locale" = Val.str "en" :=
  ⟨rfl,
   (getFieldsForLocale_locale_shadowed localeFieldEntry.fields "en" ["de"]).1,
   (getFieldsForLocale_locale_shadowed localeFieldEntry.fields "en" ["de"]).2.2 Unit
      concatMerge [localeFieldEntry] [LocaleSpec.codes ["en", "de"]] 0 0 (by decide)
      (by decide) rfl rfl⟩

/-! ## `flatten` against its two descriptions -/

theorem singleLevel_acc (data : List Val) :
    ∀ acc : List Val,
      data.foldl
          (fun acc b =>
            match b with
            | Val.arr xs => acc ++ xs
            | v => acc ++ [v])
          acc
        = acc ++ flattenSingleLevel data := by
  induction data with
  | nil => intro acc; simp [flattenSingleLevel]
  | cons b rest ih =>
    intro acc
    have h1 := ih
    unfold flattenSingleLevel at h1 ⊢
    simp only [List.foldl_cons]
    cases b <;> (simp only []; rw [h1 (acc ++ _), h1 ([] ++ _)]; simp)

theorem singleLevel_cons_arr (xs : List Val) (rest : List Val) :
    flattenSingleLevel (Val.arr xs :: rest) = xs ++ flattenSingleLevel rest := by
  show List.foldl _ _ (Val.arr xs :: rest) = _
  rw [List.foldl_cons, singleLevel_acc]
  simp

theorem singleLevel_cons_obj (o : Obj) (rest : List Val) :
    flattenSingleLevel (Val.obj o :: rest) = Val.obj o :: flattenSingleLevel rest := by
  show List.foldl _ _ (Val.obj o :: rest) = _
  rw [List.foldl_cons, singleLevel_acc]
  simp

theorem singleLevel_projected (am : Val → Val → Val) (ls : List LocaleSpec)
    (es : List Entry) :
    flattenSingleLevel (es.map (projectEntry am (some ls)))
      = (es.map (localizedRecords am ls)).flatten := by
  induction es with
  | nil => rfl
  | cons e rest ih =>
    rw [List.map_cons, projectEntry_some, singleLevel_cons_arr, ih]
    simp

theorem singleLevel_raw (am : Val → Val → Val) (es : List Entry) :
    flattenSingleLevel (es.map (projectEntry am none)) = es.map (rawRecord am) := by
  induction es with
  | nil => rfl
  | cons e rest ih =>
    rw [List.map_cons, projectEntry_none, rawRecord, singleLevel_cons_obj, ih]
    simp [rawRecord]

theorem flatten_raw_projected (am : Val → Val → Val) (es : List Entry) :
    flatten (es.map (projectEntry am none)) = es.map (rawRecord am) := by
  have h : projectEntry am none = rawRecord am := by
    funext e; exact projectEntry_none am e
  rw [h, flatten_rawRecords]

/-- C14: on the intermediate data that `getEntries` builds (one record per entry, or one list of
records per entry), the recursive `flatten` gives the same result as the single-level
flattening that appends the per-entry lists, for every entry set and every locale
configuration; so `getEntries` fulfils with the single-level flattening of that data. -/
theorem flatten_eq_single_level {ε : Type} (am : Val → Val → Val)
    (locales : Option (List LocaleSpec)) (es : List Entry) :
    flatten (es.map (projectEntry am locales))
        = flattenSingleLevel (es.map (projectEntry am locales))
      ∧ getEntries (ε := ε) am locales (Except.ok es)
        = Except.ok (flattenSingleLevel (es.map (projectEntry am locales))) := by
  have h : flatten (es.map (projectEntry am locales))
      = flattenSingleLevel (es.map (projectEntry am locales)) := by
    cases locales with
    | none => rw [flatten_raw_projected, singleLevel_raw]
    | some ls => rw [flatten_projected, singleLevel_projected]
  refine ⟨h, ?_⟩
  simp only [getEntries]
  rw [h]

mutual
theorem flattenItem_eq_leaves : ∀ b : Val, flattenItem b = leaves b
  | Val.arr xs => by
    rw [flattenItem, leaves]
    exact flattenReduce_eq_leaves xs
  | Val.undef => rfl
  | Val.null => rfl
  | Val.bool _ => rfl
  | Val.num _ => rfl
  | Val.str _ => rfl
  | Val.obj _ => rfl
theorem flattenReduce_eq_leaves : ∀ xs : List Val, flattenReduce [] xs = leavesOfList xs
  | [] => rfl
  | b :: rest => by
    rw [flattenReduce, flattenReduce_acc, leavesOfList, flattenItem_eq_leaves b,
      flattenReduce_eq_leaves rest]
    simp
end

mutual
theorem leaves_no_array : ∀ (b x : Val), x ∈ leaves b → isArray x = false
  | Val.arr xs, x, h => by
    rw [leaves] at h
    exact leavesOfList_no_array xs x h
  | Val.undef, x, h => by simp [leaves] at h; subst h; rfl
  | Val.null, x, h => by simp [leaves] at h; subst h; rfl
  | Val.bool _, x, h => by simp [leaves] at h; subst h; rfl
  | Val.num _, x, h => by simp [leaves] at h; subst h; rfl
  | Val.str _, x, h => by simp [leaves] at h; subst h; rfl
  | Val.obj _, x, h => by simp [leaves] at h; subst h; rfl
theorem leavesOfList_no_array : ∀ (xs : List Val) (x : Val), x ∈ leavesOfList xs →
    isArray x = false
  | [], x, h => by simp [leavesOfList] at h
  | b :: rest, x, h => by
    rw [leavesOfList, List.mem_append] at h
    rcases h with h | h
    · exact leaves_no_array b x h
    · exact leavesOfList_no_array rest x h
end

theorem flatten_of_no_array (xs : List Val) (h : ∀ x ∈ xs, isArray x = false) :
    flatten xs = xs := by
  induction xs with
  | nil => exact flatten_nil
  | cons b rest ih =>
    have hb : isArray b = false := h b (List.mem_cons_self b rest)
    have hrest : flatten rest = rest := ih (fun x hx => h x (List.mem_cons_of_mem b hx))
    rw [flatten_cons, hrest]
    cases b <;> first | rfl | simp [isArray] at hb

/-- C18: `flatten` is a total function on finitely nested arrays, and its result is the list of
the non-array leaves of the array in left-to-right depth-first order; in particular the result
contains no array element, and `flatten(flatten(a)) = flatten(a)`. -/
theorem flatten_leaves (a : List Val) :
    ∃ r : List Val,
      flatten a = r
        ∧ r = leavesOfList a
        ∧ (∀ x ∈ r, isArray x = false)
        ∧ flatten r = r := by
  have h1 : flatten a = leavesOfList a := flattenReduce_eq_leaves a
  have h2 : ∀ x ∈ flatten a, isArray x = false := by
    intro x hx
    rw [h1] at hx
    exact leavesOfList_no_array a x hx
  exact ⟨flatten a, rfl, h1, h2, flatten_of_no_array (flatten a) h2⟩

/-- C18, at `[1, [2, [3, []], "x"], [[4]]]`: `flatten` returns `[1, 2, 3, "x", 4]`. -/
theorem flatten_leaves_witness :
    flatten nestedArray = [Val.num 1, Val.num 2, Val.num 3, Val.str "x", Val.num 4]
    ∧ ∃ r : List Val,
      flatten nestedArray = r
        ∧ r = leavesOfList nestedArray
        ∧ (∀ x ∈ r, isArray x = false)
        ∧ flatten r = r :=
  ⟨rfl, flatten_leaves nestedArray⟩

end Contentful
